import Mathlib

/-!
Verification of the yamahamidi multi-partial additive-synth control engine.

Shallow embedding of the JavaScript sources:
* `EventTimestampTracker` (js-lib/EventTimestampTracker.js) — sample timestamps are
  embedded as `ℤ` (JS numbers, integral in all uses); the event interval is stored
  together with its positivity (the generator loop diverges for a non-positive
  interval, so only positive intervals are meaningful states).
* `PhaseAccumulator` (js-lib/PhaseAccumulator.js) — JS numbers embedded as `ℝ`;
  the JS remainder operator `%` (truncated remainder, sign of the dividend) is
  embedded as `jsRem`.
* `SineEventScheduler` (js-lib/SineEventScheduler.js) — the two `Float32Array`s are
  embedded as total maps `ℕ → ℝ` (float32 rounding is not modelled) together with
  their allocated length `bufferSize`; `ampWrites`/`freqWrites` are ghost logs of
  the indices written since the last `beginFrame`, used to state the buffer-bounds
  safety property.  They are not part of the source state and no operation reads them.
* `AdditiveSynthProcessor` (simple-additive-01/processor.js) — modulator state and
  the modulator evaluators over `ℝ`; `Math.pow` is embedded as real `rpow`,
  `Math.round` as `⌊x + 1/2⌋`, and the JS truthiness idiom `Number(v) || d` as
  `jsOr` (for real payloads: `0` is the falsy number; `NaN` is outside the model).
-/

namespace YamahaMidi

/-! ## EventTimestampTracker (js-lib/EventTimestampTracker.js) -/

/-- State of `EventTimestampTracker`: `lastSample` (initially `null`) and the
event `interval`.  The interval is carried with its positivity, since the
generation loop `while (sample <= targetSample) sample += this.interval`
only terminates for positive intervals. -/
structure EventTimestampTracker where
  lastSample : Option ℤ
  interval : ℤ
  interval_pos : 0 < interval

/-- `constructor(eventInterval = 128)` with the default interval and
`this.lastSample = null`. -/
def mkTracker : EventTimestampTracker :=
  { lastSample := none, interval := 128, interval_pos := by norm_num }

/-- The loop of `generateSamples`: starting at `sample`, yield
`sample, sample + interval, …` while `sample ≤ target`. -/
def genFrom (t : EventTimestampTracker) (sample target : ℤ) : List ℤ :=
  if sample ≤ target then
    sample :: genFrom t (sample + t.interval) target
  else []
termination_by (target + 1 - sample).toNat
decreasing_by
  have h := t.interval_pos
  omega

/-- The start of the generated sequence: `blockStart` if there was no prior
event, else `lastSample + interval` (lines 41–43 of the source). -/
def startSample (t : EventTimestampTracker) (blockStart : ℤ) : ℤ :=
  match t.lastSample with
  | none => blockStart
  | some l => l + t.interval

/-- `generateSamples(blockStart, targetSample)`, fully consumed: the produced
timestamps, and the tracker after the generator has run to completion
(`lastSample` is updated to the last produced value iff anything was produced). -/
def generateSamples (t : EventTimestampTracker) (blockStart target : ℤ) :
    List ℤ × EventTimestampTracker :=
  let out := genFrom t (startSample t blockStart) target
  match out.getLast? with
  | none => (out, t)
  | some l => (out, { t with lastSample := some l })

/-- `countEvents(blockStart, targetSample)`: pure count, computed with
`Math.floor((targetSample - startSample) / this.interval) + 1`.  For the
positive interval, JS `Math.floor` division is integer `ediv`. -/
def countEvents (t : EventTimestampTracker) (blockStart target : ℤ) : ℤ :=
  let s := startSample t blockStart
  if s > target then 0
  else (target - s) / t.interval + 1

/-- Running a sequence of fully-consumed `generateSamples` calls, collecting
all produced timestamps in order. -/
def runCalls (t : EventTimestampTracker) : List (ℤ × ℤ) → List ℤ × EventTimestampTracker
  | [] => ([], t)
  | (b, tg) :: rest =>
    let r := generateSamples t b tg
    let rr := runCalls r.2 rest
    (r.1 ++ rr.1, rr.2)

/-- Invariant tying a tracker to the timestamps already produced: the history
is duplicate-free and every produced timestamp is at most the cursor. -/
def GoodHistory (t : EventTimestampTracker) (h : List ℤ) : Prop :=
  h.Nodup ∧ ∀ x ∈ h, ∃ m, t.lastSample = some m ∧ x ≤ m

/-- The interval-128 tracker with no prior event. -/
def freshTracker128 : EventTimestampTracker :=
  { lastSample := none, interval := 128, interval_pos := by norm_num }

/-! ## PhaseAccumulator (src/unnamed/part_003) -/

/-- JS truncation toward zero (`Math.trunc`), the rounding used by the JS
remainder operator. -/
noncomputable def jsTrunc (x : ℝ) : ℤ :=
  if 0 ≤ x then ⌊x⌋ else ⌈x⌉

/-- The JS remainder operator `x % y` on (finite) numbers: truncated remainder,
carrying the sign of the dividend. -/
noncomputable def jsRem (x y : ℝ) : ℝ :=
  x - y * jsTrunc (x / y)

/-- State of `PhaseAccumulator`: `phase`, `rate` (Hz) and `lastSample`. -/
structure PhaseAccumulator where
  phase : ℝ
  rate : ℝ
  lastSample : ℝ

/-- `constructor(rate = 1.0)`. -/
def mkPhaseAccumulator (rate : ℝ) : PhaseAccumulator :=
  { phase := 0, rate := rate, lastSample := 0 }

/-- `setRate(rate)`. -/
def setRate (p : PhaseAccumulator) (rate : ℝ) : PhaseAccumulator :=
  { p with rate := rate }

/-- `getPhase()`. -/
def getPhase (p : PhaseAccumulator) : ℝ := p.phase

/-- `resetPhase(phase)`: stores `phase % 1.0` (JS remainder). -/
noncomputable def resetPhase (p : PhaseAccumulator) (phase : ℝ) : PhaseAccumulator :=
  { p with phase := jsRem phase 1 }

/-- `advance(currentSample, sampleRate)`: returns the new phase and the updated
state.  The phase moves only for a positive sample delta; `lastSample` is always
updated. -/
noncomputable def advance (p : PhaseAccumulator) (currentSample sampleRate : ℝ) :
    ℝ × PhaseAccumulator :=
  let delta := currentSample - p.lastSample
  let newPhase :=
    if 0 < delta then jsRem (p.phase + delta / sampleRate * p.rate) 1 else p.phase
  (newPhase, { p with phase := newPhase, lastSample := currentSample })

/-- `sinAt(sampleOffset, sampleRate, phaseOffset = 0)`: a value and the state,
which the source method leaves untouched (it only reads `phase` and `rate`). -/
noncomputable def sinAt (p : PhaseAccumulator) (sampleOffset sampleRate phaseOffset : ℝ) :
    ℝ × PhaseAccumulator :=
  (Real.sin (2 * Real.pi *
      jsRem (p.phase + sampleOffset / sampleRate * p.rate + phaseOffset) 1), p)

/-- Folding a whole list of `sinAt` calls through the state. -/
noncomputable def runSinAts (p : PhaseAccumulator) (argsList : List (ℝ × ℝ × ℝ)) :
    PhaseAccumulator :=
  argsList.foldl (fun q a => (sinAt q a.1 a.2.1 a.2.2).2) p

/-- One method call of the `PhaseAccumulator` surface. -/
inductive PACmd where
  | setRateCmd (rate : ℝ)
  | advanceCmd (currentSample sampleRate : ℝ)
  | resetPhaseCmd (phase : ℝ)
  | sinAtCmd (sampleOffset sampleRate phaseOffset : ℝ)

/-- The state effect of one method call. -/
noncomputable def applyPACmd (p : PhaseAccumulator) : PACmd → PhaseAccumulator
  | .setRateCmd r => setRate p r
  | .advanceCmd c sr => (advance p c sr).2
  | .resetPhaseCmd ph => resetPhase p ph
  | .sinAtCmd o sr ph => (sinAt p o sr ph).2

/-- Running a sequence of method calls. -/
noncomputable def runPACmds (p : PhaseAccumulator) : List PACmd → PhaseAccumulator
  | [] => p
  | c :: rest => runPACmds (applyPACmd p c) rest

/-- Calls whose arguments keep the phase non-negative: non-negative rates and
reset phases, positive sample rates. -/
def PACmdNonneg : PACmd → Prop
  | .setRateCmd r => 0 ≤ r
  | .advanceCmd _ sr => 0 < sr
  | .resetPhaseCmd ph => 0 ≤ ph
  | .sinAtCmd _ _ _ => True

/-! ## SineEventScheduler (js-lib/SineEventScheduler.js)

The two `Float32Array`s are embedded as total maps `ℕ → ℝ` plus the allocated
length `bufferSize`.  `ampWrites` / `freqWrites` are ghost logs of every index
written since the last `beginFrame`; no operation reads them and `beginFrame`
clears them, so they only serve to state the "writes stay below capacity"
safety property. -/

structure SineEventScheduler where
  ampBuffer : ℕ → ℝ
  freqBuffer : ℕ → ℝ
  ampOffset : ℕ
  freqOffset : ℕ
  currentSineId : Option ℝ
  ampCountIdx : ℕ
  freqCountIdx : ℕ
  currentAmpCount : ℕ
  currentFreqCount : ℕ
  maxEventsPerSine : ℕ
  bufferSize : ℕ
  ampWrites : List ℕ
  freqWrites : List ℕ

/-- `constructor(maxSines, maxEventsPerSine = 8)`: zero-filled buffers of size
`maxSines * (3 + maxEventsPerSine * 2)`, all offsets and counts zero. -/
def mkScheduler (maxSines maxEventsPerSine : ℕ) : SineEventScheduler :=
  { ampBuffer := fun _ => 0
    freqBuffer := fun _ => 0
    ampOffset := 0
    freqOffset := 0
    currentSineId := none
    ampCountIdx := 0
    freqCountIdx := 0
    currentAmpCount := 0
    currentFreqCount := 0
    maxEventsPerSine := maxEventsPerSine
    bufferSize := maxSines * (3 + maxEventsPerSine * 2)
    ampWrites := []
    freqWrites := [] }

/-- `beginFrame()`: resets both write offsets (and the ghost write logs for the
new frame). -/
def beginFrame (s : SineEventScheduler) : SineEventScheduler :=
  { s with ampOffset := 0, freqOffset := 0, currentSineId := none,
           ampWrites := [], freqWrites := [] }

/-- `beginSine(sineId, override = false)`: writes `sineId` at the current offset,
reserves the next slot for the event count (`ampCountIdx`/`freqCountIdx`, not
written yet), writes the override flag two slots up, advances each offset by 3
and zeroes the per-sine event counts. -/
def beginSine (s : SineEventScheduler) (sineId : ℝ) (override : Bool) :
    SineEventScheduler :=
  { s with
    currentSineId := some sineId
    ampBuffer := Function.update (Function.update s.ampBuffer s.ampOffset sineId)
        (s.ampOffset + 2) (if override then 1 else 0)
    ampWrites := (s.ampOffset + 2) :: s.ampOffset :: s.ampWrites
    ampCountIdx := s.ampOffset + 1
    ampOffset := s.ampOffset + 3
    currentAmpCount := 0
    freqBuffer := Function.update (Function.update s.freqBuffer s.freqOffset sineId)
        (s.freqOffset + 2) (if override then 1 else 0)
    freqWrites := (s.freqOffset + 2) :: s.freqOffset :: s.freqWrites
    freqCountIdx := s.freqOffset + 1
    freqOffset := s.freqOffset + 3
    currentFreqCount := 0 }

/-- `addAmplitudeEvent(sample, value)`: returns `false` without mutating once the
per-sine cap is reached, else appends the `(sample, value)` pair. -/
def addAmplitudeEvent (s : SineEventScheduler) (sample value : ℝ) :
    Bool × SineEventScheduler :=
  if s.maxEventsPerSine ≤ s.currentAmpCount then (false, s)
  else (true,
    { s with
      ampBuffer := Function.update (Function.update s.ampBuffer s.ampOffset sample)
          (s.ampOffset + 1) value
      ampWrites := (s.ampOffset + 1) :: s.ampOffset :: s.ampWrites
      ampOffset := s.ampOffset + 2
      currentAmpCount := s.currentAmpCount + 1 })

/-- `addFrequencyEvent(sample, freqHz)`: same shape as `addAmplitudeEvent` on the
frequency buffer. -/
def addFrequencyEvent (s : SineEventScheduler) (sample freqHz : ℝ) :
    Bool × SineEventScheduler :=
  if s.maxEventsPerSine ≤ s.currentFreqCount then (false, s)
  else (true,
    { s with
      freqBuffer := Function.update (Function.update s.freqBuffer s.freqOffset sample)
          (s.freqOffset + 1) freqHz
      freqWrites := (s.freqOffset + 1) :: s.freqOffset :: s.freqWrites
      freqOffset := s.freqOffset + 2
      currentFreqCount := s.currentFreqCount + 1 })

/-- `endSine()`: backfills the two event counts at the remembered header slots. -/
def endSine (s : SineEventScheduler) : SineEventScheduler :=
  { s with
    ampBuffer := Function.update s.ampBuffer s.ampCountIdx (s.currentAmpCount : ℝ)
    ampWrites := s.ampCountIdx :: s.ampWrites
    freqBuffer := Function.update s.freqBuffer s.freqCountIdx (s.currentFreqCount : ℝ)
    freqWrites := s.freqCountIdx :: s.freqWrites
    currentSineId := none }

/-- `getAmplitudeBuffer()`: the written prefix `[0, ampOffset)`. -/
def getAmplitudeBuffer (s : SineEventScheduler) : List ℝ :=
  (List.range s.ampOffset).map s.ampBuffer

/-- `getFrequencyBuffer()`: the written prefix `[0, freqOffset)`. -/
def getFrequencyBuffer (s : SineEventScheduler) : List ℝ :=
  (List.range s.freqOffset).map s.freqBuffer

/-- Folding repeated `addAmplitudeEvent` calls, collecting each call's result. -/
def addAmpList (s : SineEventScheduler) : List (ℝ × ℝ) → List Bool × SineEventScheduler
  | [] => ([], s)
  | (a, v) :: rest =>
    let r := addAmplitudeEvent s a v
    let rr := addAmpList r.2 rest
    (r.1 :: rr.1, rr.2)

/-- One event-adding call inside a sine section: `true` tags an
`addAmplitudeEvent(sample, value)` call, `false` an
`addFrequencyEvent(sample, freq)` call (the returned flag is dropped, as the
caller policy is "drop"). -/
def addEvent (s : SineEventScheduler) : Bool × ℝ × ℝ → SineEventScheduler
  | (true, sample, value) => (addAmplitudeEvent s sample value).2
  | (false, sample, freq) => (addFrequencyEvent s sample freq).2

/-- One well-formed `beginSine … endSine` section. -/
structure SineSection where
  sineId : ℝ
  ov : Bool
  events : List (Bool × ℝ × ℝ)

/-- `beginSine`; the section's event calls; `endSine`. -/
def runSection (s : SineEventScheduler) (sec : SineSection) : SineEventScheduler :=
  endSine (sec.events.foldl addEvent (beginSine s sec.sineId sec.ov))

/-- `beginFrame` followed by a list of sine sections. -/
def runFrame (s : SineEventScheduler) (secs : List SineSection) : SineEventScheduler :=
  secs.foldl runSection (beginFrame s)

/-- Invariant between sections, `k` sections into the frame: all logged writes
are below the current offsets, and the offsets are bounded by the space `k`
well-formed sections can consume. -/
def FrameInv (s : SineEventScheduler) (k : ℕ) : Prop :=
  (∀ i ∈ s.ampWrites, i < s.ampOffset) ∧
  (∀ i ∈ s.freqWrites, i < s.freqOffset) ∧
  s.ampOffset ≤ k * (3 + s.maxEventsPerSine * 2) ∧
  s.freqOffset ≤ k * (3 + s.maxEventsPerSine * 2)

/-- Invariant inside a section whose headers start at `oA`/`oF`. -/
def MidInv (s : SineEventScheduler) (oA oF : ℕ) : Prop :=
  (∀ i ∈ s.ampWrites, i < s.ampOffset) ∧
  (∀ i ∈ s.freqWrites, i < s.freqOffset) ∧
  s.ampCountIdx = oA + 1 ∧ s.freqCountIdx = oF + 1 ∧
  s.ampOffset = oA + 3 + 2 * s.currentAmpCount ∧
  s.freqOffset = oF + 3 + 2 * s.currentFreqCount ∧
  s.currentAmpCount ≤ s.maxEventsPerSine ∧
  s.currentFreqCount ≤ s.maxEventsPerSine

/-! ## AdditiveSynthProcessor (simple-additive-01/processor.js)

Modulator state and the per-partial evaluators.  JS `Math.pow` is embedded as
real `rpow` (`x ^ y` with a real exponent), `Math.round` as `⌊x + 1/2⌋`,
`Math.log2` as `Real.logb 2`. -/

/-- JS `Math.round` (round half toward positive infinity). -/
noncomputable def jsRound (x : ℝ) : ℤ := ⌊x + 1/2⌋

/-- `KEYBOARD_RAMP_SAMPLES = 8`. -/
def KEYBOARD_RAMP_SAMPLES : ℝ := 8

/-- The modulator / control state of `AdditiveSynthProcessor` read by the
per-block loop (renderer handles and visualization arrays are outside the
model).  `fallingHarmonic.pos` is `fallingPos`; the landed set is a `Finset`. -/
structure AdditiveSynthState where
  baseFreq : ℝ
  lfoEnabled : Bool
  lfoAmount : ℝ
  lfoOffset : ℝ
  lfo : PhaseAccumulator
  randomEnabled : Bool
  randomChangeRate : ℝ
  randomValues : Fin 32 → ℝ
  lowpassEnabled : Bool
  lowpassCutoff : ℝ
  lowpassSlope : ℝ
  lowpassResonance : ℝ
  highpassEnabled : Bool
  highpassCutoff : ℝ
  highpassSlope : ℝ
  highpassResonance : ℝ
  combEnabled : Bool
  combSpacing : ℝ
  combPhase : ℝ
  pwmEnabled : Bool
  pwmDuty : ℝ
  wavefolderEnabled : Bool
  wavefolderFold : ℝ
  wavefolderAsymmetry : ℝ
  barberPoleEnabled : Bool
  barberPoleDensity : ℝ
  barberPoleSpeed : ℝ
  barberPoleQ : ℝ
  barberPolePhase : ℝ
  fallingEnabled : Bool
  fallingProbability : ℝ
  fallingPos : ℕ
  fallingLanded : Finset ℕ
  vowelEnabled : Bool
  vowelMorph : ℝ
  vowelQ : ℝ
  keyboardPitchEnabled : Bool
  keyboardPitchRatio : ℝ
  prevKeyboardPitchRatio : ℝ
  keyboardGateEnabled : Bool
  keyboardGateOpen : Bool
  prevKeyboardGateOpen : Bool
  needsImmediateEvent : Bool
  lastAmpEventSample : Fin 32 → Option ℝ
  lastFreqEventSample : Fin 32 → Option ℝ

/-- The constructor defaults of `AdditiveSynthProcessor` (lines 20–102). -/
def initialSynthState : AdditiveSynthState :=
  { baseFreq := 110
    lfoEnabled := true
    lfoAmount := 0.5
    lfoOffset := 0
    lfo := mkPhaseAccumulator 1
    randomEnabled := true
    randomChangeRate := 2
    randomValues := fun _ => 1
    lowpassEnabled := false
    lowpassCutoff := 10
    lowpassSlope := 2
    lowpassResonance := 0.5
    highpassEnabled := false
    highpassCutoff := 8
    highpassSlope := 2
    highpassResonance := 0.5
    combEnabled := false
    combSpacing := 4
    combPhase := 0
    pwmEnabled := false
    pwmDuty := 0.32
    wavefolderEnabled := false
    wavefolderFold := 2.5
    wavefolderAsymmetry := 0
    barberPoleEnabled := false
    barberPoleDensity := 6
    barberPoleSpeed := 3
    barberPoleQ := 2
    barberPolePhase := 0
    fallingEnabled := false
    fallingProbability := 0.1
    fallingPos := 31
    fallingLanded := ∅
    vowelEnabled := false
    vowelMorph := 0.5
    vowelQ := 12
    keyboardPitchEnabled := false
    keyboardPitchRatio := 1
    prevKeyboardPitchRatio := 1
    keyboardGateEnabled := false
    keyboardGateOpen := true
    prevKeyboardGateOpen := true
    needsImmediateEvent := false
    lastAmpEventSample := fun _ => none
    lastFreqEventSample := fun _ => none }

/-- `evaluateLfo(sampleOffset, phaseOffset)` (the processor passes the global
`sampleRate`). -/
noncomputable def evaluateLfo (st : AdditiveSynthState)
    (sampleRate sampleOffset phaseOffset : ℝ) : ℝ :=
  if st.lfoEnabled then
    st.lfoOffset + st.lfoAmount * (sinAt st.lfo sampleOffset sampleRate phaseOffset).1
  else 1

/-- `evaluateRandom(partialIndex)`. -/
def evaluateRandom (st : AdditiveSynthState) (i : Fin 32) : ℝ :=
  if st.randomEnabled then st.randomValues i else 1

/-- `evaluateLowpass(partialNum)`. -/
noncomputable def evaluateLowpass (st : AdditiveSynthState) (partialNum : ℝ) : ℝ :=
  if st.lowpassEnabled then
    let lp := 1 / (1 + (partialNum / st.lowpassCutoff) ^ (2 * st.lowpassSlope))
    let res := st.lowpassResonance *
      Real.exp (-0.5 * ((partialNum - st.lowpassCutoff) / (st.lowpassCutoff * 0.1)) ^ (2 : ℝ))
    lp + res
  else 1

/-- `evaluateHighpass(partialNum)`. -/
noncomputable def evaluateHighpass (st : AdditiveSynthState) (partialNum : ℝ) : ℝ :=
  if st.highpassEnabled then
    let hp := (partialNum / st.highpassCutoff) ^ (2 * st.highpassSlope) /
      (1 + (partialNum / st.highpassCutoff) ^ (2 * st.highpassSlope))
    let res := st.highpassResonance *
      Real.exp (-0.5 * ((partialNum - st.highpassCutoff) / (st.highpassCutoff * 0.1)) ^ (2 : ℝ))
    hp + res
  else 1

/-- `evaluateComb(partialNum)`. -/
noncomputable def evaluateComb (st : AdditiveSynthState) (partialNum : ℝ) : ℝ :=
  if st.combEnabled then
    0.5 + 0.5 * Real.cos (partialNum * Real.pi / st.combSpacing + st.combPhase)
  else 1

/-- `evaluatePwm(partialNum)`: the duty cycle is folded into `[0,1)` with
`((d % 1) + 1) % 1`. -/
noncomputable def evaluatePwm (st : AdditiveSynthState) (partialNum : ℝ) : ℝ :=
  if st.pwmEnabled then
    let d := jsRem (jsRem st.pwmDuty 1 + 1) 1
    2 / (partialNum * Real.pi) * Real.sin (partialNum * Real.pi * d)
  else 1

/-- `evaluateWavefolder(partialNum)`. -/
noncomputable def evaluateWavefolder (st : AdditiveSynthState) (partialNum : ℝ) : ℝ :=
  if st.wavefolderEnabled then
    let normalizedHarmonic := partialNum / 32
    let foldAmount := st.wavefolderFold * (1 + normalizedHarmonic * st.wavefolderAsymmetry)
    let foldPattern := Real.sin (partialNum * foldAmount) * Real.cos (partialNum / foldAmount)
    let emphasis := 0.5 + 0.5 * Real.sin (partialNum * Real.pi / foldAmount)
    foldPattern * emphasis
  else 1

/-- `evaluateBarberPole(partialIndex)`. -/
noncomputable def evaluateBarberPole (st : AdditiveSynthState) (partialIndex : ℝ) : ℝ :=
  if st.barberPoleEnabled then
    let pos := partialIndex / st.barberPoleDensity + st.barberPolePhase
    let frac := pos - (jsRound pos : ℝ)
    let stripe := max 0 (Real.cos (Real.pi * frac))
    stripe ^ st.barberPoleQ
  else 1

/-- `evaluateFalling(partialIndex)`. -/
def evaluateFalling (st : AdditiveSynthState) (partialIndex : ℕ) : ℝ :=
  if st.fallingEnabled then
    if partialIndex ∈ st.fallingLanded ∨ st.fallingPos = partialIndex then 1 else 0
  else 1

/-- The five formant triples (A, E, I, O, U); in-range indices match the JS
array, and the source only indexes with `idxA ∈ [0,4]` and
`idxB = min(idxA+1, 4)`. -/
noncomputable def vowelFormants : ℤ → (Fin 3 → ℝ)
  | 0 => ![730, 1090, 2440]
  | 1 => ![660, 1700, 2400]
  | 2 => ![440, 1220, 2600]
  | 3 => ![400, 800, 2600]
  | _ => ![350, 600, 2700]

/-- `evaluateVowel(partialNum)`. -/
noncomputable def evaluateVowel (st : AdditiveSynthState) (partialNum : ℝ) : ℝ :=
  if st.vowelEnabled then
    let morph := max 0 (min 1 st.vowelMorph)
    let idx := morph * 4
    let idxA := ⌊idx⌋
    let idxB := min (idxA + 1) 4
    let t := idx - (idxA : ℝ)
    let harmonicFreq := st.baseFreq * partialNum
    (Finset.univ : Finset (Fin 3)).sum fun fi =>
      let f := vowelFormants idxA fi * (1 - t) + vowelFormants idxB fi * t
      let dist := Real.logb 2 (harmonicFreq / f)
      Real.exp (-st.vowelQ * dist * dist)
  else 1

/-- `evaluateKeyboardGate()`. -/
def evaluateKeyboardGate (st : AdditiveSynthState) : ℝ :=
  if st.keyboardGateEnabled then (if st.keyboardGateOpen then 1 else 0) else 1

/-- `evaluateKeyboardPitch()`. -/
def evaluateKeyboardPitch (st : AdditiveSynthState) : ℝ :=
  if st.keyboardPitchEnabled then st.keyboardPitchRatio else 1

/-- The ten-factor product `lfo·random·lowpass·highpass·comb·pwm·wavefolder·
barberPole·falling·vowel` (line 439 / the same factors of line 504). -/
noncomputable def baseAmplitude (st : AdditiveSynthState)
    (sampleRate sampleOffset : ℝ) (i : Fin 32) : ℝ :=
  let partialNum : ℝ := ((i : ℕ) : ℝ) + 1
  let phaseOffset : ℝ := ((i : ℕ) : ℝ) / 32
  evaluateLfo st sampleRate sampleOffset phaseOffset *
    evaluateRandom st i *
    evaluateLowpass st partialNum *
    evaluateHighpass st partialNum *
    evaluateComb st partialNum *
    evaluatePwm st partialNum *
    evaluateWavefolder st partialNum *
    evaluateBarberPole st ((i : ℕ) : ℝ) *
    evaluateFalling st (i : ℕ) *
    evaluateVowel st partialNum

/-- `combinedAmplitude` of the main loop (line 504): all modulators times the
keyboard gate, before the `/16` headroom scaling. -/
noncomputable def combinedAmplitude (st : AdditiveSynthState)
    (sampleRate sampleOffset : ℝ) (i : Fin 32) : ℝ :=
  baseAmplitude st sampleRate sampleOffset i * evaluateKeyboardGate st

/-- `scaledAmp` of the main loop (line 507). -/
noncomputable def scaledAmplitude (st : AdditiveSynthState)
    (sampleRate sampleOffset : ℝ) (i : Fin 32) : ℝ :=
  combinedAmplitude st sampleRate sampleOffset i / 16

/-- Per-partial frequency (line 546): `baseFreq * pitchMod * partialNum`. -/
def partialFrequency (st : AdditiveSynthState) (i : Fin 32) : ℝ :=
  st.baseFreq * evaluateKeyboardPitch st * (((i : ℕ) : ℝ) + 1)

/-- The C1 configuration: constructor defaults with every modulator disabled
except the comb (spacing 4, phase 0 are the defaults), base frequency 110. -/
def combOnlyState : AdditiveSynthState :=
  { initialSynthState with
    lfoEnabled := false
    randomEnabled := false
    combEnabled := true }

/-! ## Control-message handlers (processor.js lines 126–205) -/

/-- The JS idiom `Number(v) || d` for a finite numeric payload `v`: `0` is the
only falsy finite number, so the default replaces exactly the zero payload
(`NaN` is outside the real-valued model). -/
noncomputable def jsOr (v d : ℝ) : ℝ := if v = 0 then d else v

/-- Handler of `set-base-freq` (line 128): `this.baseFreq = Number(v) || 110`. -/
noncomputable def handleSetBaseFreq (st : AdditiveSynthState) (v : ℝ) : AdditiveSynthState :=
  { st with baseFreq := jsOr v 110 }

/-- Handler of `set-lfo-rate` (line 132): `this.lfo.setRate(Number(v) || 1.0)`. -/
noncomputable def handleSetLfoRate (st : AdditiveSynthState) (v : ℝ) : AdditiveSynthState :=
  { st with lfo := setRate st.lfo (jsOr v 1) }

/-- Handler of `set-lowpass-cutoff` (line 145): `Number(v) || 10`. -/
noncomputable def handleSetLowpassCutoff (st : AdditiveSynthState) (v : ℝ) : AdditiveSynthState :=
  { st with lowpassCutoff := jsOr v 10 }

/-- Handler of `set-comb-spacing` (line 157): `Number(v) || 4`. -/
noncomputable def handleSetCombSpacing (st : AdditiveSynthState) (v : ℝ) : AdditiveSynthState :=
  { st with combSpacing := jsOr v 4 }

/-- Handler of `set-pwm-duty` (line 162): `Number(v) || 0.32`. -/
noncomputable def handleSetPwmDuty (st : AdditiveSynthState) (v : ℝ) : AdditiveSynthState :=
  { st with pwmDuty := jsOr v 0.32 }

/-- Handler of `set-keyboard-pitch-ratio` (lines 192–196): saves the previous
ratio, stores `Number(v) || 1.0` and requests an immediate override ramp. -/
noncomputable def handleSetKeyboardPitchRatio (st : AdditiveSynthState) (v : ℝ) :
    AdditiveSynthState :=
  { st with
    prevKeyboardPitchRatio := st.keyboardPitchRatio
    keyboardPitchRatio := jsOr v 1
    needsImmediateEvent := true }

/-! ## Immediate override injection (processor.js lines 410–469) -/

/-- The body of the per-partial injection loop (lines 419–462): `beginSine` in
override mode, amplitude point A (pre-change gate) at `currentSample`, point B
(post-change gate) 8 samples later, the two frequency points with the pre- and
post-change pitch ratio, then `endSine`. -/
noncomputable def injectPartial (st : AdditiveSynthState) (sampleRate currentSample : ℝ)
    (sineId : ℝ) (i : Fin 32) (sch : SineEventScheduler) : SineEventScheduler :=
  let prevPitchMod := if st.keyboardPitchEnabled then st.prevKeyboardPitchRatio else 1
  let newPitchMod := evaluateKeyboardPitch st
  let prevGateValue :=
    if st.keyboardGateEnabled then (if st.prevKeyboardGateOpen then (1 : ℝ) else 0) else 1
  let newGateValue := evaluateKeyboardGate st
  let partialNum : ℝ := ((i : ℕ) : ℝ) + 1
  let s1 := beginSine sch sineId true
  let base := baseAmplitude st sampleRate 0 i
  let prevAmplitude := base * prevGateValue / 16
  let s2 := (addAmplitudeEvent s1 currentSample prevAmplitude).2
  let rampSample := currentSample + KEYBOARD_RAMP_SAMPLES
  let newAmplitude := base * newGateValue / 16
  let s3 := (addAmplitudeEvent s2 rampSample newAmplitude).2
  let prevFreq := st.baseFreq * prevPitchMod * partialNum
  let s4 := (addFrequencyEvent s3 currentSample prevFreq).2
  let newFreq := st.baseFreq * newPitchMod * partialNum
  let s5 := (addFrequencyEvent s4 rampSample newFreq).2
  endSine s5

/-- The whole immediate-injection block (lines 410–469): when an instantaneous
keyboard change is pending, inject the override pair for every partial, advance
every partial's two cursors to the ramp sample, commit the previous keyboard
state and clear the flag; otherwise do nothing. -/
noncomputable def processImmediate (st : AdditiveSynthState) (sampleRate currentSample : ℝ)
    (sineIds : Fin 32 → ℝ) (sch : SineEventScheduler) :
    SineEventScheduler × AdditiveSynthState :=
  if st.needsImmediateEvent then
    ((List.finRange 32).foldl
        (fun s i => injectPartial st sampleRate currentSample (sineIds i) i s) sch,
     { st with
        lastAmpEventSample := fun _ => some (currentSample + KEYBOARD_RAMP_SAMPLES)
        lastFreqEventSample := fun _ => some (currentSample + KEYBOARD_RAMP_SAMPLES)
        prevKeyboardPitchRatio := st.keyboardPitchRatio
        prevKeyboardGateOpen := st.keyboardGateOpen
        needsImmediateEvent := false })
  else (sch, st)

/-- The control state with the keyboard gate rolled back to its pre-change
value (what the main loop would have used before the change). -/
def prevGateState (st : AdditiveSynthState) : AdditiveSynthState :=
  { st with keyboardGateOpen := st.prevKeyboardGateOpen }

/-- The control state with the pitch ratio rolled back to its pre-change value. -/
def prevPitchState (st : AdditiveSynthState) : AdditiveSynthState :=
  { st with keyboardPitchRatio := st.prevKeyboardPitchRatio }

/-- The expected amplitude-buffer segment of one injected partial, following the
claim's words: header `[id, 2, override]`, point A at the current sample valued
by the previous control state, point B eight samples later valued by the new
state — both values being exactly what the normal scheduling path
(`scaledAmplitude`, line 507) computes at offset 0 in the respective states. -/
noncomputable def ampOverrideSection (st : AdditiveSynthState)
    (sampleRate currentSample sineId : ℝ) (i : Fin 32) : List ℝ :=
  [sineId, 2, 1,
   currentSample, scaledAmplitude (prevGateState st) sampleRate 0 i,
   currentSample + KEYBOARD_RAMP_SAMPLES, scaledAmplitude st sampleRate 0 i]

/-- The expected frequency-buffer segment of one injected partial (values are
what the normal path `partialFrequency`, line 546, computes in the previous and
the new control state). -/
noncomputable def freqOverrideSection (st : AdditiveSynthState)
    (currentSample sineId : ℝ) (i : Fin 32) : List ℝ :=
  [sineId, 2, 1,
   currentSample, partialFrequency (prevPitchState st) i,
   currentSample + KEYBOARD_RAMP_SAMPLES, partialFrequency st i]

/-! ## Theorems -/

theorem genFrom_step (t : EventTimestampTracker) {s target : ℤ} (h : s ≤ target) :
    genFrom t s target = s :: genFrom t (s + t.interval) target := by
  rw [genFrom, if_pos h]

theorem genFrom_stop (t : EventTimestampTracker) {s target : ℤ} (h : ¬ s ≤ target) :
    genFrom t s target = [] := by
  rw [genFrom, if_neg h]

theorem genFrom_length (t : EventTimestampTracker) (s target : ℤ) :
    ((genFrom t s target).length : ℤ) =
      if s ≤ target then (target - s) / t.interval + 1 else 0 := by
  induction s, target using genFrom.induct t with
  | case1 s target h ih =>
    rw [genFrom]
    simp only [if_pos h, List.length_cons]
    push_cast
    rw [ih]
    have hi := t.interval_pos
    by_cases h2 : s + t.interval ≤ target
    · rw [if_pos h2]
      have he : target - s = target - (s + t.interval) + 1 * t.interval := by ring
      rw [he, Int.add_mul_ediv_right _ _ (by omega : t.interval ≠ 0)]
    · rw [if_neg h2]
      have he : (target - s) / t.interval = 0 :=
        Int.ediv_eq_zero_of_lt (by omega) (by omega)
      rw [he]
  | case2 s target h =>
    rw [genFrom]
    simp [h]

theorem mem_genFrom {t : EventTimestampTracker} {s target x : ℤ}
    (hx : x ∈ genFrom t s target) : s ≤ x ∧ x ≤ target := by
  induction s, target using genFrom.induct t with
  | case1 s target h ih =>
    rw [genFrom, if_pos h] at hx
    have hi := t.interval_pos
    rcases List.mem_cons.1 hx with rfl | hx'
    · exact ⟨le_refl _, h⟩
    · have := ih hx'
      omega
  | case2 s target h =>
    rw [genFrom, if_neg h] at hx
    simp at hx

theorem genFrom_pairwise (t : EventTimestampTracker) (s target : ℤ) :
    (genFrom t s target).Pairwise (· < ·) := by
  induction s, target using genFrom.induct t with
  | case1 s target h ih =>
    rw [genFrom, if_pos h]
    refine List.pairwise_cons.2 ⟨?_, ih⟩
    intro x hx
    have := (mem_genFrom hx).1
    have hi := t.interval_pos
    omega
  | case2 s target h =>
    rw [genFrom, if_neg h]
    exact List.Pairwise.nil

theorem getLast?_mem_of_eq_some {α : Type} {l : List α} {a : α}
    (h : l.getLast? = some a) : a ∈ l := by
  rcases List.mem_getLast?_eq_getLast (Option.mem_def.mpr h) with ⟨hne, rfl⟩
  exact List.getLast_mem hne

theorem genFrom_le_getLast {t : EventTimestampTracker} {s target : ℤ} :
    ∀ x ∈ genFrom t s target, ∀ l, (genFrom t s target).getLast? = some l → x ≤ l := by
  intro x hx l hl
  have hp := genFrom_pairwise t s target
  -- split off the last element: the list is `dropLast ++ [l]`
  have hdec := List.dropLast_append_getLast? l (Option.mem_def.mpr hl)
  rw [← hdec] at hp hx
  rcases List.mem_append.1 hx with hxd | hxl
  · exact le_of_lt ((List.pairwise_append.1 hp).2.2 x hxd l (List.mem_singleton_self l))
  · exact le_of_eq (List.mem_singleton.1 hxl)

theorem generateSamples_eq_none {t : EventTimestampTracker} {b tg : ℤ}
    (h0 : (genFrom t (startSample t b) tg).getLast? = none) :
    generateSamples t b tg = (genFrom t (startSample t b) tg, t) := by
  simp only [generateSamples, h0]

theorem generateSamples_eq_some {t : EventTimestampTracker} {b tg : ℤ} {l : ℤ}
    (h0 : (genFrom t (startSample t b) tg).getLast? = some l) :
    generateSamples t b tg =
      (genFrom t (startSample t b) tg, { t with lastSample := some l }) := by
  simp only [generateSamples, h0]

theorem generateSamples_good {t : EventTimestampTracker} {h : List ℤ}
    (hg : GoodHistory t h) (b tg : ℤ) :
    GoodHistory (generateSamples t b tg).2 (h ++ (generateSamples t b tg).1) := by
  obtain ⟨hnd, hle⟩ := hg
  rcases hout : (genFrom t (startSample t b) tg).getLast? with _ | l
  · -- nothing produced: state unchanged, output empty
    have hnil : genFrom t (startSample t b) tg = [] := List.getLast?_eq_none_iff.1 hout
    rw [generateSamples_eq_none hout]
    simp only [hnil, List.append_nil]
    exact ⟨hnd, hle⟩
  · -- something produced: new cursor is the (maximal) last output
    rw [generateSamples_eq_some hout]
    have hi := t.interval_pos
    have hlmem : l ∈ genFrom t (startSample t b) tg := getLast?_mem_of_eq_some hout
    have hstart_lt : ∀ m, t.lastSample = some m → m < startSample t b := by
      intro m hm
      simp only [startSample, hm]
      omega
    have hout_lb : ∀ x ∈ genFrom t (startSample t b) tg, startSample t b ≤ x :=
      fun x hx => (mem_genFrom hx).1
    constructor
    · -- Nodup of history ++ output
      rw [List.nodup_append]
      refine ⟨hnd, (genFrom_pairwise t _ tg).nodup, ?_⟩
      intro x hxh hxo
      obtain ⟨m, hm, hxm⟩ := hle x hxh
      have := hout_lb x hxo
      have := hstart_lt m hm
      omega
    · -- all produced timestamps are at most the new cursor l
      intro x hx
      refine ⟨l, rfl, ?_⟩
      rcases List.mem_append.1 hx with hxh | hxo
      · obtain ⟨m, hm, hxm⟩ := hle x hxh
        have h1 := hstart_lt m hm
        have h2 := hout_lb l hlmem
        omega
      · exact genFrom_le_getLast x hxo l hout

theorem runCalls_good {t : EventTimestampTracker} {h : List ℤ}
    (hg : GoodHistory t h) (calls : List (ℤ × ℤ)) :
    (h ++ (runCalls t calls).1).Nodup := by
  induction calls generalizing t h with
  | nil => simpa [runCalls] using hg.1
  | cons c rest ih =>
    obtain ⟨b, tg⟩ := c
    have step := generateSamples_good hg b tg
    have := ih step
    simpa [runCalls] using this

/-- C2: for an interval-128 tracker starting from a fresh (no-prior-event) state,
fully consuming `generateSamples(0,300)` and then `generateSamples(301,600)`
produces, as a set, exactly the timestamps of a single `generateSamples(0,600)`
on an identical fresh tracker (both runs produce `[0,128,256,384,512]`), and no
timestamp is ever produced twice across any sequence of `generateSamples` calls
on one tracker. -/
theorem tracker_restart_correctness :
    (∀ x : ℤ,
        x ∈ (generateSamples freshTracker128 0 300).1 ++
            (generateSamples (generateSamples freshTracker128 0 300).2 301 600).1 ↔
          x ∈ (generateSamples freshTracker128 0 600).1) ∧
    ∀ (t : EventTimestampTracker) (calls : List (ℤ × ℤ)),
      (runCalls t calls).1.Nodup := by
  constructor
  · have e12 : (generateSamples freshTracker128 0 300).1 ++
        (generateSamples (generateSamples freshTracker128 0 300).2 301 600).1 =
        [0, 128, 256, 384, 512] := by
      norm_num [generateSamples, startSample, genFrom_step, genFrom_stop, freshTracker128]
    have e3 : (generateSamples freshTracker128 0 600).1 = [0, 128, 256, 384, 512] := by
      norm_num [generateSamples, startSample, genFrom_step, genFrom_stop, freshTracker128]
    rw [e12, e3]
    exact fun x => Iff.rfl
  · intro t calls
    simpa using runCalls_good (t := t) ⟨List.nodup_nil, by simp⟩ calls

/-- C3: for every tracker state (any `lastSample`, any positive interval) and every
`(blockStart, targetSample)`, `countEvents` returns exactly the number of timestamps
that fully consuming `generateSamples` yields.  In this embedding `countEvents` is a
function of the state returning only the count, mirroring that the source method
only reads `lastSample`/`interval` and never writes them. -/
theorem countEvents_eq_generateSamples_length (t : EventTimestampTracker) (b tg : ℤ) :
    countEvents t b tg = ((generateSamples t b tg).1.length : ℤ) := by
  have h1 : (generateSamples t b tg).1 = genFrom t (startSample t b) tg := by
    rcases hout : (genFrom t (startSample t b) tg).getLast? with _ | l
    · rw [generateSamples_eq_none hout]
    · rw [generateSamples_eq_some hout]
  rw [h1, genFrom_length]
  simp only [countEvents]
  by_cases h : startSample t b ≤ tg
  · rw [if_pos h, if_neg (by omega)]
  · rw [if_neg h, if_pos (by omega)]

theorem runSinAts_eq_self (argsList : List (ℝ × ℝ × ℝ)) :
    ∀ p : PhaseAccumulator, runSinAts p argsList = p := by
  induction argsList with
  | nil => intro p; rfl
  | cons a l ih =>
    intro p
    simp only [runSinAts, List.foldl_cons, sinAt]
    exact ih p

/-- C8: `sinAt` never modifies the accumulator state (`phase`, `rate`,
`lastSample`); repeated calls with identical arguments on the unchanged state
return identical results; and the result and post-state of an `advance` are
identical whether or not any number of `sinAt` calls ran before it. -/
theorem sinAt_non_mutating (p : PhaseAccumulator) (off sr ph : ℝ)
    (argsList : List (ℝ × ℝ × ℝ)) (currentSample sampleRate : ℝ) :
    (sinAt p off sr ph).2 = p ∧
    (sinAt ((sinAt p off sr ph).2) off sr ph).1 = (sinAt p off sr ph).1 ∧
    advance (runSinAts p argsList) currentSample sampleRate =
      advance p currentSample sampleRate := by
  refine ⟨rfl, rfl, ?_⟩
  rw [runSinAts_eq_self]

theorem jsRem_one_eq (x : ℝ) : jsRem x 1 = x - (jsTrunc x : ℝ) := by
  simp [jsRem]

theorem jsRem_one_bounds (x : ℝ) : -1 < jsRem x 1 ∧ jsRem x 1 < 1 := by
  rw [jsRem_one_eq]
  unfold jsTrunc
  by_cases hx : 0 ≤ x
  · rw [if_pos hx]
    have h1 := Int.floor_le x
    have h2 := Int.lt_floor_add_one x
    constructor <;> linarith
  · rw [if_neg hx]
    have h1 := Int.le_ceil x
    have h2 := Int.ceil_lt_add_one x
    constructor <;> linarith

theorem jsRem_one_nonneg {x : ℝ} (hx : 0 ≤ x) : 0 ≤ jsRem x 1 ∧ jsRem x 1 < 1 := by
  rw [jsRem_one_eq]
  unfold jsTrunc
  rw [if_pos hx]
  have h1 := Int.floor_le x
  have h2 := Int.lt_floor_add_one x
  have h3 : (0 : ℝ) ≤ (⌊x⌋ : ℝ) := by
    have := Int.floor_nonneg.2 hx
    exact_mod_cast this
  constructor <;> linarith

theorem applyPACmd_open_bounds {p : PhaseAccumulator}
    (hp : -1 < p.phase ∧ p.phase < 1) (c : PACmd) :
    -1 < (applyPACmd p c).phase ∧ (applyPACmd p c).phase < 1 := by
  cases c with
  | setRateCmd r => simpa [applyPACmd, setRate] using hp
  | advanceCmd cs sr =>
    simp only [applyPACmd, advance]
    split
    · exact jsRem_one_bounds _
    · exact hp
  | resetPhaseCmd ph =>
    simp only [applyPACmd, resetPhase]
    exact jsRem_one_bounds _
  | sinAtCmd o sr ph => simpa [applyPACmd, sinAt] using hp

theorem applyPACmd_nonneg_bounds {p : PhaseAccumulator}
    (hp : 0 ≤ p.phase ∧ p.phase < 1 ∧ 0 ≤ p.rate) {c : PACmd} (hc : PACmdNonneg c) :
    0 ≤ (applyPACmd p c).phase ∧ (applyPACmd p c).phase < 1 ∧
      0 ≤ (applyPACmd p c).rate := by
  obtain ⟨h0, h1, hr⟩ := hp
  cases c with
  | setRateCmd r =>
    simp only [applyPACmd, setRate]
    exact ⟨h0, h1, hc⟩
  | advanceCmd cs sr =>
    simp only [applyPACmd, advance]
    split
    · have harg : 0 ≤ p.phase + (cs - p.lastSample) / sr * p.rate := by
        have hd : (0 : ℝ) < cs - p.lastSample := by assumption
        have hsr : (0 : ℝ) < sr := hc
        have : 0 ≤ (cs - p.lastSample) / sr * p.rate :=
          mul_nonneg (le_of_lt (div_pos hd hsr)) hr
        linarith
      have := jsRem_one_nonneg harg
      exact ⟨this.1, this.2, hr⟩
    · exact ⟨h0, h1, hr⟩
  | resetPhaseCmd ph =>
    simp only [applyPACmd, resetPhase]
    have := jsRem_one_nonneg (hc : 0 ≤ ph)
    exact ⟨this.1, this.2, hr⟩
  | sinAtCmd o sr ph =>
    simp only [applyPACmd, sinAt]
    exact ⟨h0, h1, hr⟩

/-- C9 (amended): across every sequence of `setRate`/`advance`/`resetPhase`/`sinAt`
calls the phase stays in the open interval `(-1, 1)` (the JS remainder keeps the
dividend's sign, so negative phases are reachable); it stays in `[0, 1)` whenever
all supplied rates and reset phases are non-negative and sample rates positive. -/
theorem paPhase_normalized (p : PhaseAccumulator) (cmds : List PACmd) :
    ((-1 < getPhase p ∧ getPhase p < 1) →
      (-1 < getPhase (runPACmds p cmds) ∧ getPhase (runPACmds p cmds) < 1)) ∧
    ((0 ≤ getPhase p ∧ getPhase p < 1 ∧ 0 ≤ p.rate ∧ ∀ c ∈ cmds, PACmdNonneg c) →
      (0 ≤ getPhase (runPACmds p cmds) ∧ getPhase (runPACmds p cmds) < 1)) := by
  induction cmds generalizing p with
  | nil => exact ⟨fun h => h, fun h => ⟨h.1, h.2.1⟩⟩
  | cons c rest ih =>
    constructor
    · intro hp
      exact (ih (applyPACmd p c)).1 (applyPACmd_open_bounds hp c)
    · rintro ⟨h0, h1, hr, hall⟩
      have hc : PACmdNonneg c := hall c (List.mem_cons_self c rest)
      have step := applyPACmd_nonneg_bounds ⟨h0, h1, hr⟩ hc
      exact (ih (applyPACmd p c)).2
        ⟨step.1, step.2.1, step.2.2, fun d hd => hall d (List.mem_cons_of_mem c hd)⟩

theorem paPhase_normalized_witness :
    (-1 < getPhase (runPACmds (mkPhaseAccumulator 1) [PACmd.advanceCmd 128 48000]) ∧
      getPhase (runPACmds (mkPhaseAccumulator 1) [PACmd.advanceCmd 128 48000]) < 1) ∧
    (0 ≤ getPhase (runPACmds (mkPhaseAccumulator 1) [PACmd.advanceCmd 128 48000]) ∧
      getPhase (runPACmds (mkPhaseAccumulator 1) [PACmd.advanceCmd 128 48000]) < 1) := by
  constructor
  · exact (paPhase_normalized (mkPhaseAccumulator 1) [PACmd.advanceCmd 128 48000]).1
      (by norm_num [getPhase, mkPhaseAccumulator])
  · refine (paPhase_normalized (mkPhaseAccumulator 1) [PACmd.advanceCmd 128 48000]).2
      ⟨by norm_num [getPhase, mkPhaseAccumulator],
       by norm_num [getPhase, mkPhaseAccumulator],
       by norm_num [mkPhaseAccumulator], ?_⟩
    intro c hc
    rcases List.mem_singleton.1 hc with rfl
    show (0 : ℝ) < 48000
    norm_num

/-- C9 counterexample: `resetPhase(-0.5)` stores `-0.5 % 1.0 = -0.5` (the JS
remainder keeps the dividend's sign), so after this single call `getPhase`
is not in `[0, 1)`. -/
theorem paPhase_negative_counterexample :
    getPhase (runPACmds (mkPhaseAccumulator 1) [PACmd.resetPhaseCmd (-(1/2))]) = -(1/2) ∧
    ¬ (0 ≤ getPhase (runPACmds (mkPhaseAccumulator 1) [PACmd.resetPhaseCmd (-(1/2))]) ∧
        getPhase (runPACmds (mkPhaseAccumulator 1) [PACmd.resetPhaseCmd (-(1/2))]) < 1) := by
  have hceil : ⌈(-(1 : ℝ)/2)⌉ = 0 := by
    rw [Int.ceil_eq_zero_iff]
    constructor <;> norm_num
  have hval : getPhase (runPACmds (mkPhaseAccumulator 1) [PACmd.resetPhaseCmd (-(1/2))]) =
      -(1/2) := by
    show getPhase (applyPACmd (mkPhaseAccumulator 1) (PACmd.resetPhaseCmd (-(1/2)))) = -(1/2)
    simp only [applyPACmd, resetPhase, getPhase, jsRem, jsTrunc, div_one]
    rw [if_neg (by norm_num)]
    rw [show (-(1 : ℝ)/2) = (-(1/2) : ℝ) by norm_num] at hceil
    rw [hceil]
    norm_num
  refine ⟨hval, ?_⟩
  rw [hval]
  intro h
  linarith [h.1]

/-- C5: from a freshly constructed scheduler, the sequence `beginFrame();
beginSine(5); addAmplitudeEvent(100, 0.5); addAmplitudeEvent(228, 0.3);
endSine()` leaves the written amplitude prefix equal to
`[5, 2, 0, 100, 0.5, 228, 0.3]`. -/
theorem scheduler_encoding_example :
    getAmplitudeBuffer
      (endSine
        ((addAmplitudeEvent
          ((addAmplitudeEvent
            (beginSine (beginFrame (mkScheduler 32 8)) 5 false)
            100 0.5).2)
          228 0.3).2)) = [5, 2, 0, 100, 0.5, 228, 0.3] := by
  norm_num [getAmplitudeBuffer, endSine, addAmplitudeEvent, beginSine, beginFrame,
    mkScheduler, Function.update, List.range_succ]

theorem addAmpList_full {events : List (ℝ × ℝ)} :
    ∀ s : SineEventScheduler, s.currentAmpCount + events.length ≤ s.maxEventsPerSine →
      (addAmpList s events).1 = List.replicate events.length true ∧
      (addAmpList s events).2.currentAmpCount = s.currentAmpCount + events.length ∧
      (addAmpList s events).2.maxEventsPerSine = s.maxEventsPerSine := by
  induction events with
  | nil =>
    intro s h
    exact ⟨rfl, rfl, rfl⟩
  | cons e rest ih =>
    intro s h
    obtain ⟨a, v⟩ := e
    have hok : ¬ s.maxEventsPerSine ≤ s.currentAmpCount := by
      simp only [List.length_cons] at h
      omega
    simp only [addAmpList, addAmplitudeEvent, if_neg hok, List.length_cons,
      List.replicate_succ]
    have hrec := ih
      { s with
        ampBuffer := Function.update (Function.update s.ampBuffer s.ampOffset a)
            (s.ampOffset + 1) v
        ampWrites := (s.ampOffset + 1) :: s.ampOffset :: s.ampWrites
        ampOffset := s.ampOffset + 2
        currentAmpCount := s.currentAmpCount + 1 }
      (by simp only [List.length_cons] at h; simpa using by omega)
    refine ⟨?_, ?_, ?_⟩
    · simpa using hrec.1
    · have := hrec.2.1
      simpa [Nat.add_assoc, Nat.add_comm, Nat.add_left_comm] using this
    · simpa using hrec.2.2

/-- C6: within one `beginSine`/`endSine` section, the first `maxEventsPerSine`
calls to `addAmplitudeEvent` all return `true`, and the next call returns
`false` and leaves the entire scheduler state exactly as it was after the last
successful call. -/
theorem addAmplitudeEvent_cap (s : SineEventScheduler) (sineId : ℝ) (ov : Bool)
    (events : List (ℝ × ℝ)) (sample value : ℝ)
    (hlen : events.length = s.maxEventsPerSine) :
    (addAmpList (beginSine s sineId ov) events).1 = List.replicate events.length true ∧
    addAmplitudeEvent (addAmpList (beginSine s sineId ov) events).2 sample value =
      (false, (addAmpList (beginSine s sineId ov) events).2) := by
  have hpre : (beginSine s sineId ov).currentAmpCount + events.length ≤
      (beginSine s sineId ov).maxEventsPerSine := by
    have hc : (beginSine s sineId ov).currentAmpCount = 0 := rfl
    have hm : (beginSine s sineId ov).maxEventsPerSine = s.maxEventsPerSine := rfl
    rw [hc, hm, hlen]
    omega
  have h := addAmpList_full (beginSine s sineId ov) hpre
  refine ⟨h.1, ?_⟩
  have hfull : (addAmpList (beginSine s sineId ov) events).2.maxEventsPerSine ≤
      (addAmpList (beginSine s sineId ov) events).2.currentAmpCount := by
    rw [h.2.1, h.2.2]
    have hc : (beginSine s sineId ov).currentAmpCount = 0 := rfl
    have hm : (beginSine s sineId ov).maxEventsPerSine = s.maxEventsPerSine := rfl
    rw [hc, hm, hlen]
    omega
  rw [addAmplitudeEvent, if_pos hfull]

theorem addAmplitudeEvent_cap_witness :
    (addAmpList (beginSine (mkScheduler 1 2) 0 false) [(0, 0), (0, 0)]).1 =
      List.replicate 2 true ∧
    addAmplitudeEvent
        (addAmpList (beginSine (mkScheduler 1 2) 0 false) [(0, 0), (0, 0)]).2 3 4 =
      (false, (addAmpList (beginSine (mkScheduler 1 2) 0 false) [(0, 0), (0, 0)]).2) := by
  exact addAmplitudeEvent_cap (mkScheduler 1 2) 0 false [(0, 0), (0, 0)] 3 4 rfl

/-- C7 counterexample: the claim quantifies over arbitrary operation sequences
within one frame, but nothing in the code bounds the number of `beginSine`
calls: with `maxSines = 1, maxEventsPerSine = 0` the capacity is `3`, yet a
frame with two (empty) sine sections writes at amplitude-buffer index `3`. -/
theorem scheduler_capacity_counterexample :
    3 ∈ (runFrame (mkScheduler 1 0)
          [⟨1, false, []⟩, ⟨2, false, []⟩]).ampWrites ∧
    ¬ (3 < (runFrame (mkScheduler 1 0)
          [⟨1, false, []⟩, ⟨2, false, []⟩]).bufferSize) := by
  norm_num [runFrame, runSection, beginFrame, beginSine, endSine, mkScheduler]

theorem addEvent_mid {s : SineEventScheduler} {oA oF : ℕ}
    (h : MidInv s oA oF) (e : Bool × ℝ × ℝ) :
    MidInv (addEvent s e) oA oF ∧
    (addEvent s e).maxEventsPerSine = s.maxEventsPerSine ∧
    (addEvent s e).bufferSize = s.bufferSize := by
  obtain ⟨hA, hF, hca, hcf, hoa, hof, hna, hnf⟩ := h
  obtain ⟨b, a, v⟩ := e
  cases b
  · -- frequency event
    simp only [addEvent, addFrequencyEvent]
    split
    · exact ⟨⟨hA, hF, hca, hcf, hoa, hof, hna, hnf⟩, rfl, rfl⟩
    · rename_i hcap
      refine ⟨⟨hA, ?_, hca, hcf, hoa, ?_, hna, ?_⟩, rfl, rfl⟩
      · show ∀ i ∈ (s.freqOffset + 1) :: s.freqOffset :: s.freqWrites,
          i < s.freqOffset + 2
        intro i hi
        rcases List.mem_cons.1 hi with rfl | hi'
        · omega
        rcases List.mem_cons.1 hi' with rfl | hi''
        · omega
        · have := hF i hi''
          omega
      · show s.freqOffset + 2 = oF + 3 + 2 * (s.currentFreqCount + 1)
        omega
      · show s.currentFreqCount + 1 ≤ s.maxEventsPerSine
        omega
  · -- amplitude event
    simp only [addEvent, addAmplitudeEvent]
    split
    · exact ⟨⟨hA, hF, hca, hcf, hoa, hof, hna, hnf⟩, rfl, rfl⟩
    · rename_i hcap
      refine ⟨⟨?_, hF, hca, hcf, ?_, hof, ?_, hnf⟩, rfl, rfl⟩
      · show ∀ i ∈ (s.ampOffset + 1) :: s.ampOffset :: s.ampWrites,
          i < s.ampOffset + 2
        intro i hi
        rcases List.mem_cons.1 hi with rfl | hi'
        · omega
        rcases List.mem_cons.1 hi' with rfl | hi''
        · omega
        · have := hA i hi''
          omega
      · show s.ampOffset + 2 = oA + 3 + 2 * (s.currentAmpCount + 1)
        omega
      · show s.currentAmpCount + 1 ≤ s.maxEventsPerSine
        omega

theorem foldl_addEvent_mid (events : List (Bool × ℝ × ℝ)) :
    ∀ {s : SineEventScheduler} {oA oF : ℕ}, MidInv s oA oF →
      MidInv (events.foldl addEvent s) oA oF ∧
      (events.foldl addEvent s).maxEventsPerSine = s.maxEventsPerSine ∧
      (events.foldl addEvent s).bufferSize = s.bufferSize := by
  induction events with
  | nil =>
    intro s oA oF h
    exact ⟨h, rfl, rfl⟩
  | cons e rest ih =>
    intro s oA oF h
    have step := addEvent_mid h e
    have hrec := ih step.1
    simp only [List.foldl_cons]
    exact ⟨hrec.1, hrec.2.1.trans step.2.1, hrec.2.2.trans step.2.2⟩

theorem beginSine_mid {s : SineEventScheduler} {k : ℕ}
    (h : FrameInv s k) (sineId : ℝ) (ov : Bool) :
    MidInv (beginSine s sineId ov) s.ampOffset s.freqOffset := by
  obtain ⟨hA, hF, _, _⟩ := h
  refine ⟨?_, ?_, rfl, rfl, rfl, rfl, Nat.zero_le _, Nat.zero_le _⟩
  · show ∀ i ∈ (s.ampOffset + 2) :: s.ampOffset :: s.ampWrites, i < s.ampOffset + 3
    intro i hi
    rcases List.mem_cons.1 hi with rfl | hi'
    · omega
    rcases List.mem_cons.1 hi' with rfl | hi''
    · omega
    · have := hA i hi''
      omega
  · show ∀ i ∈ (s.freqOffset + 2) :: s.freqOffset :: s.freqWrites, i < s.freqOffset + 3
    intro i hi
    rcases List.mem_cons.1 hi with rfl | hi'
    · omega
    rcases List.mem_cons.1 hi' with rfl | hi''
    · omega
    · have := hF i hi''
      omega

theorem endSine_frame {s : SineEventScheduler} {oA oF k : ℕ}
    (h : MidInv s oA oF)
    (hoA : oA ≤ k * (3 + s.maxEventsPerSine * 2))
    (hoF : oF ≤ k * (3 + s.maxEventsPerSine * 2)) :
    FrameInv (endSine s) (k + 1) := by
  obtain ⟨hA, hF, hca, hcf, hoa, hof, hna, hnf⟩ := h
  refine ⟨?_, ?_, ?_, ?_⟩
  · show ∀ i ∈ s.ampCountIdx :: s.ampWrites, i < s.ampOffset
    intro i hi
    rcases List.mem_cons.1 hi with rfl | hi'
    · omega
    · exact hA i hi'
  · show ∀ i ∈ s.freqCountIdx :: s.freqWrites, i < s.freqOffset
    intro i hi
    rcases List.mem_cons.1 hi with rfl | hi'
    · omega
    · exact hF i hi'
  · show s.ampOffset ≤ (k + 1) * (3 + s.maxEventsPerSine * 2)
    have : (k + 1) * (3 + s.maxEventsPerSine * 2) =
        k * (3 + s.maxEventsPerSine * 2) + (3 + s.maxEventsPerSine * 2) := by ring
    omega
  · show s.freqOffset ≤ (k + 1) * (3 + s.maxEventsPerSine * 2)
    have : (k + 1) * (3 + s.maxEventsPerSine * 2) =
        k * (3 + s.maxEventsPerSine * 2) + (3 + s.maxEventsPerSine * 2) := by ring
    omega

theorem runSection_frame {s : SineEventScheduler} {k : ℕ}
    (h : FrameInv s k) (sec : SineSection) :
    FrameInv (runSection s sec) (k + 1) ∧
    (runSection s sec).maxEventsPerSine = s.maxEventsPerSine ∧
    (runSection s sec).bufferSize = s.bufferSize := by
  have hmid := beginSine_mid h sec.sineId sec.ov
  have hfold := foldl_addEvent_mid sec.events hmid
  have hcap : (sec.events.foldl addEvent (beginSine s sec.sineId sec.ov)).maxEventsPerSine =
      s.maxEventsPerSine := hfold.2.1
  refine ⟨?_, hcap, hfold.2.2⟩
  have := endSine_frame hfold.1
    (by rw [hcap]; exact h.2.2.1) (by rw [hcap]; exact h.2.2.2)
  exact this

theorem runSections_frame (secs : List SineSection) :
    ∀ (s : SineEventScheduler) (k : ℕ), FrameInv s k →
      FrameInv (secs.foldl runSection s) (k + secs.length) ∧
      (secs.foldl runSection s).maxEventsPerSine = s.maxEventsPerSine ∧
      (secs.foldl runSection s).bufferSize = s.bufferSize := by
  induction secs with
  | nil =>
    intro s k h
    exact ⟨h, rfl, rfl⟩
  | cons sec rest ih =>
    intro s k h
    have step := runSection_frame h sec
    have hrec := ih (runSection s sec) (k + 1) step.1
    simp only [List.foldl_cons, List.length_cons]
    refine ⟨?_, hrec.2.1.trans step.2.1, hrec.2.2.trans step.2.2⟩
    have e : k + 1 + rest.length = k + (rest.length + 1) := by omega
    rw [e] at hrec
    exact hrec.1

/-- C7 (amended): for a scheduler constructed with capacity
`maxSines * (3 + maxEventsPerSine * 2)` per buffer, every frame consisting of
at most `maxSines` well-formed `beginSine … add… … endSine` sections keeps all
buffer writes strictly below the capacity (the per-sine event cap bounds each
section).  With more than `maxSines` sections per frame, writes past the
capacity do occur. -/
theorem scheduler_writes_bounded (maxSines maxEventsPerSine : ℕ)
    (secs : List SineSection) (hlen : secs.length ≤ maxSines) :
    (∀ i ∈ (runFrame (mkScheduler maxSines maxEventsPerSine) secs).ampWrites,
        i < (mkScheduler maxSines maxEventsPerSine).bufferSize) ∧
    (∀ i ∈ (runFrame (mkScheduler maxSines maxEventsPerSine) secs).freqWrites,
        i < (mkScheduler maxSines maxEventsPerSine).bufferSize) := by
  have h0 : FrameInv (beginFrame (mkScheduler maxSines maxEventsPerSine)) 0 := by
    refine ⟨?_, ?_, Nat.zero_le _, Nat.zero_le _⟩
    · intro i hi
      simp [beginFrame] at hi
    · intro i hi
      simp [beginFrame] at hi
  have h := runSections_frame secs (beginFrame (mkScheduler maxSines maxEventsPerSine)) 0 h0
  obtain ⟨⟨hA, hF, hoA, hoF⟩, hcap, _⟩ := h
  have hcap' : (secs.foldl runSection (beginFrame (mkScheduler maxSines maxEventsPerSine))).maxEventsPerSine =
      maxEventsPerSine := hcap
  have hsize : (mkScheduler maxSines maxEventsPerSine).bufferSize =
      maxSines * (3 + maxEventsPerSine * 2) := rfl
  constructor
  · intro i hi
    have h1 := hA i hi
    rw [hcap'] at hoA
    have h2 : (0 + secs.length) * (3 + maxEventsPerSine * 2) ≤
        maxSines * (3 + maxEventsPerSine * 2) :=
      Nat.mul_le_mul_right _ (by omega)
    show i < (mkScheduler maxSines maxEventsPerSine).bufferSize
    rw [hsize]
    omega
  · intro i hi
    have h1 := hF i hi
    rw [hcap'] at hoF
    have h2 : (0 + secs.length) * (3 + maxEventsPerSine * 2) ≤
        maxSines * (3 + maxEventsPerSine * 2) :=
      Nat.mul_le_mul_right _ (by omega)
    show i < (mkScheduler maxSines maxEventsPerSine).bufferSize
    rw [hsize]
    omega

theorem scheduler_writes_bounded_witness :
    (∀ i ∈ (runFrame (mkScheduler 1 0) [⟨1, false, []⟩]).ampWrites,
        i < (mkScheduler 1 0).bufferSize) ∧
    (∀ i ∈ (runFrame (mkScheduler 1 0) [⟨1, false, []⟩]).freqWrites,
        i < (mkScheduler 1 0).bufferSize) :=
  scheduler_writes_bounded 1 0 [⟨1, false, []⟩] (by norm_num)

theorem combOnly_formula (sampleRate sampleOffset : ℝ) (i : Fin 32) :
    combinedAmplitude combOnlyState sampleRate sampleOffset i =
      0.5 + 0.5 * Real.cos ((((i : ℕ) : ℝ) + 1) * Real.pi / 4) := by
  unfold combinedAmplitude baseAmplitude
  simp only [evaluateLfo, evaluateRandom, evaluateLowpass, evaluateHighpass,
    evaluateComb, evaluatePwm, evaluateWavefolder, evaluateBarberPole,
    evaluateFalling, evaluateVowel, evaluateKeyboardGate, combOnlyState,
    initialSynthState]
  norm_num

/-- C1 (amended): with 32 partials, base frequency 110 Hz and only the comb
modulator enabled (spacing 4, phase 0), the unscaled combined per-partial
amplitude at every harmonic `n = i+1` equals `0.5 + 0.5·cos(n·π/4)`; harmonics
8 and 16 evaluate to exactly 1 (peaks), harmonics 4 and 12 to exactly 0
(troughs), and harmonics 2, 6, 10 to 1/2. -/
theorem comb_only_end_to_end (sampleRate sampleOffset : ℝ) :
    (∀ i : Fin 32, combinedAmplitude combOnlyState sampleRate sampleOffset i =
        0.5 + 0.5 * Real.cos ((((i : ℕ) : ℝ) + 1) * Real.pi / 4)) ∧
    combinedAmplitude combOnlyState sampleRate sampleOffset 7 = 1 ∧
    combinedAmplitude combOnlyState sampleRate sampleOffset 15 = 1 ∧
    combinedAmplitude combOnlyState sampleRate sampleOffset 3 = 0 ∧
    combinedAmplitude combOnlyState sampleRate sampleOffset 11 = 0 ∧
    combinedAmplitude combOnlyState sampleRate sampleOffset 1 = 1/2 ∧
    combinedAmplitude combOnlyState sampleRate sampleOffset 5 = 1/2 ∧
    combinedAmplitude combOnlyState sampleRate sampleOffset 9 = 1/2 := by
  refine ⟨combOnly_formula sampleRate sampleOffset, ?_, ?_, ?_, ?_, ?_, ?_, ?_⟩
  · rw [combOnly_formula]
    have ha : ((((7 : Fin 32) : ℕ) : ℝ) + 1) * Real.pi / 4 = 2 * Real.pi := by
      have hv : ((7 : Fin 32) : ℕ) = 7 := rfl
      rw [hv]
      push_cast
      ring
    rw [ha, Real.cos_two_pi]
    norm_num
  · rw [combOnly_formula]
    have ha : ((((15 : Fin 32) : ℕ) : ℝ) + 1) * Real.pi / 4 = (2 : ℕ) * (2 * Real.pi) := by
      have hv : ((15 : Fin 32) : ℕ) = 15 := rfl
      rw [hv]
      push_cast
      ring
    rw [ha, Real.cos_nat_mul_two_pi]
    norm_num
  · rw [combOnly_formula]
    have ha : ((((3 : Fin 32) : ℕ) : ℝ) + 1) * Real.pi / 4 = Real.pi := by
      have hv : ((3 : Fin 32) : ℕ) = 3 := rfl
      rw [hv]
      push_cast
      ring
    rw [ha, Real.cos_pi]
    norm_num
  · rw [combOnly_formula]
    have ha : ((((11 : Fin 32) : ℕ) : ℝ) + 1) * Real.pi / 4 = Real.pi + 2 * Real.pi := by
      have hv : ((11 : Fin 32) : ℕ) = 11 := rfl
      rw [hv]
      push_cast
      ring
    rw [ha, Real.cos_add_two_pi, Real.cos_pi]
    norm_num
  · rw [combOnly_formula]
    have ha : ((((1 : Fin 32) : ℕ) : ℝ) + 1) * Real.pi / 4 = Real.pi / 2 := by
      have hv : ((1 : Fin 32) : ℕ) = 1 := rfl
      rw [hv]
      push_cast
      ring
    rw [ha, Real.cos_pi_div_two]
    norm_num
  · rw [combOnly_formula]
    have ha : ((((5 : Fin 32) : ℕ) : ℝ) + 1) * Real.pi / 4 = Real.pi + Real.pi / 2 := by
      have hv : ((5 : Fin 32) : ℕ) = 5 := rfl
      rw [hv]
      push_cast
      ring
    rw [ha, Real.cos_add, Real.cos_pi, Real.cos_pi_div_two, Real.sin_pi]
    norm_num
  · rw [combOnly_formula]
    have ha : ((((9 : Fin 32) : ℕ) : ℝ) + 1) * Real.pi / 4 = Real.pi / 2 + 2 * Real.pi := by
      have hv : ((9 : Fin 32) : ℕ) = 9 := rfl
      rw [hv]
      push_cast
      ring
    rw [ha, Real.cos_add_two_pi, Real.cos_pi_div_two]
    norm_num

/-- C1 counterexample: in that configuration harmonic 4 (partial index 3)
evaluates to exactly 0 — a trough, not "near 1" — and harmonic 2 evaluates to
1/2, not "near 0". -/
theorem comb_only_claim_counterexample :
    combinedAmplitude combOnlyState 48000 0 3 = 0 ∧
    combinedAmplitude combOnlyState 48000 0 1 = 1/2 := by
  constructor
  · rw [combOnly_formula]
    have ha : ((((3 : Fin 32) : ℕ) : ℝ) + 1) * Real.pi / 4 = Real.pi := by
      have hv : ((3 : Fin 32) : ℕ) = 3 := rfl
      rw [hv]
      push_cast
      ring
    rw [ha, Real.cos_pi]
    norm_num
  · rw [combOnly_formula]
    have ha : ((((1 : Fin 32) : ℕ) : ℝ) + 1) * Real.pi / 4 = Real.pi / 2 := by
      have hv : ((1 : Fin 32) : ℕ) = 1 := rfl
      rw [hv]
      push_cast
      ring
    rw [ha, Real.cos_pi_div_two]
    norm_num

/-- C10: for the scalar parameter handlers built on `Number(v) || default`
(base frequency, LFO rate, lowpass cutoff, comb spacing, PWM duty, keyboard
pitch ratio), a payload equal to 0 stores the hard-coded default instead of 0,
and no payload whatsoever can make the stored value 0. -/
theorem falsy_payload_stores_default (st : AdditiveSynthState) (v : ℝ) :
    ((handleSetBaseFreq st 0).baseFreq = 110 ∧ (handleSetBaseFreq st v).baseFreq ≠ 0) ∧
    ((handleSetLfoRate st 0).lfo.rate = 1 ∧ (handleSetLfoRate st v).lfo.rate ≠ 0) ∧
    ((handleSetLowpassCutoff st 0).lowpassCutoff = 10 ∧
      (handleSetLowpassCutoff st v).lowpassCutoff ≠ 0) ∧
    ((handleSetCombSpacing st 0).combSpacing = 4 ∧
      (handleSetCombSpacing st v).combSpacing ≠ 0) ∧
    ((handleSetPwmDuty st 0).pwmDuty = 0.32 ∧ (handleSetPwmDuty st v).pwmDuty ≠ 0) ∧
    ((handleSetKeyboardPitchRatio st 0).keyboardPitchRatio = 1 ∧
      (handleSetKeyboardPitchRatio st v).keyboardPitchRatio ≠ 0) := by
  have hzero : ∀ d : ℝ, jsOr 0 d = d := fun d => if_pos rfl
  have hne : ∀ (w d : ℝ), d ≠ 0 → jsOr w d ≠ 0 := by
    intro w d hd
    unfold jsOr
    split
    · exact hd
    · assumption
  refine ⟨⟨hzero 110, hne v 110 (by norm_num)⟩,
          ⟨hzero 1, hne v 1 (by norm_num)⟩,
          ⟨hzero 10, hne v 10 (by norm_num)⟩,
          ⟨hzero 4, hne v 4 (by norm_num)⟩,
          ⟨hzero 0.32, hne v 0.32 (by norm_num)⟩,
          ⟨hzero 1, hne v 1 (by norm_num)⟩⟩

theorem baseAmplitude_prevGateState (st : AdditiveSynthState)
    (sampleRate sampleOffset : ℝ) (i : Fin 32) :
    baseAmplitude (prevGateState st) sampleRate sampleOffset i =
      baseAmplitude st sampleRate sampleOffset i := rfl

theorem prevGateState_keyboardGateEnabled (st : AdditiveSynthState) :
    (prevGateState st).keyboardGateEnabled = st.keyboardGateEnabled := rfl

theorem prevGateState_keyboardGateOpen (st : AdditiveSynthState) :
    (prevGateState st).keyboardGateOpen = st.prevKeyboardGateOpen := rfl

theorem prevPitchState_keyboardPitchEnabled (st : AdditiveSynthState) :
    (prevPitchState st).keyboardPitchEnabled = st.keyboardPitchEnabled := rfl

theorem prevPitchState_keyboardPitchRatio (st : AdditiveSynthState) :
    (prevPitchState st).keyboardPitchRatio = st.prevKeyboardPitchRatio := rfl

theorem prevPitchState_baseFreq (st : AdditiveSynthState) :
    (prevPitchState st).baseFreq = st.baseFreq := rfl

theorem injectPartial_spec (st : AdditiveSynthState) (sampleRate currentSample sineId : ℝ)
    (i : Fin 32) (sch : SineEventScheduler) (hcap : 2 ≤ sch.maxEventsPerSine) :
    getAmplitudeBuffer (injectPartial st sampleRate currentSample sineId i sch) =
      getAmplitudeBuffer sch ++ ampOverrideSection st sampleRate currentSample sineId i ∧
    getFrequencyBuffer (injectPartial st sampleRate currentSample sineId i sch) =
      getFrequencyBuffer sch ++ freqOverrideSection st currentSample sineId i ∧
    (injectPartial st sampleRate currentSample sineId i sch).ampOffset = sch.ampOffset + 7 ∧
    (injectPartial st sampleRate currentSample sineId i sch).freqOffset = sch.freqOffset + 7 ∧
    (injectPartial st sampleRate currentSample sineId i sch).maxEventsPerSine =
      sch.maxEventsPerSine := by
  have h0 : ¬ sch.maxEventsPerSine ≤ 0 := by omega
  have h1 : ¬ sch.maxEventsPerSine ≤ 1 := by omega
  refine ⟨?_, ?_, ?_, ?_, ?_⟩
  · -- amplitude buffer
    simp only [injectPartial, beginSine, addAmplitudeEvent, addFrequencyEvent, endSine,
      if_neg h0, if_neg h1]
    show (List.range (sch.ampOffset + 3 + 2 + 2)).map _ = _
    rw [show sch.ampOffset + 3 + 2 + 2 = sch.ampOffset + 7 from by omega,
      List.range_add, List.map_append]
    congr 1
    · rw [getAmplitudeBuffer]
      refine List.map_congr_left ?_
      intro j hj
      rw [List.mem_range] at hj
      simp only [Function.update_apply]
      split_ifs <;> first | rfl | (exfalso; omega)
    · norm_num [List.range_succ, Function.update_apply, add_assoc, ampOverrideSection,
        scaledAmplitude, combinedAmplitude, evaluateKeyboardGate, KEYBOARD_RAMP_SAMPLES,
        baseAmplitude_prevGateState, prevGateState_keyboardGateEnabled,
        prevGateState_keyboardGateOpen]
  · -- frequency buffer
    simp only [injectPartial, beginSine, addAmplitudeEvent, addFrequencyEvent, endSine,
      if_neg h0, if_neg h1]
    show (List.range (sch.freqOffset + 3 + 2 + 2)).map _ = _
    rw [show sch.freqOffset + 3 + 2 + 2 = sch.freqOffset + 7 from by omega,
      List.range_add, List.map_append]
    congr 1
    · rw [getFrequencyBuffer]
      refine List.map_congr_left ?_
      intro j hj
      rw [List.mem_range] at hj
      simp only [Function.update_apply]
      split_ifs <;> first | rfl | (exfalso; omega)
    · norm_num [List.range_succ, Function.update_apply, add_assoc, freqOverrideSection,
        partialFrequency, evaluateKeyboardPitch, KEYBOARD_RAMP_SAMPLES,
        prevPitchState_keyboardPitchEnabled, prevPitchState_keyboardPitchRatio,
        prevPitchState_baseFreq]
  · simp only [injectPartial, beginSine, addAmplitudeEvent, addFrequencyEvent, endSine,
      if_neg h0, if_neg h1]
  · simp only [injectPartial, beginSine, addAmplitudeEvent, addFrequencyEvent, endSine,
      if_neg h0, if_neg h1]
  · simp only [injectPartial, beginSine, addAmplitudeEvent, addFrequencyEvent, endSine,
      if_neg h0, if_neg h1]

theorem foldl_injectPartial_spec (st : AdditiveSynthState) (sampleRate currentSample : ℝ)
    (sineIds : Fin 32 → ℝ) (l : List (Fin 32)) :
    ∀ sch : SineEventScheduler, 2 ≤ sch.maxEventsPerSine →
      getAmplitudeBuffer
          (l.foldl (fun s i => injectPartial st sampleRate currentSample (sineIds i) i s) sch) =
        getAmplitudeBuffer sch ++
          (l.map fun i => ampOverrideSection st sampleRate currentSample (sineIds i) i).flatten ∧
      getFrequencyBuffer
          (l.foldl (fun s i => injectPartial st sampleRate currentSample (sineIds i) i s) sch) =
        getFrequencyBuffer sch ++
          (l.map fun i => freqOverrideSection st currentSample (sineIds i) i).flatten ∧
      (l.foldl (fun s i => injectPartial st sampleRate currentSample (sineIds i) i s)
          sch).maxEventsPerSine = sch.maxEventsPerSine := by
  induction l with
  | nil =>
    intro sch hcap
    simp
  | cons j l ih =>
    intro sch hcap
    have hstep := injectPartial_spec st sampleRate currentSample (sineIds j) j sch hcap
    have hcap2 : 2 ≤ (injectPartial st sampleRate currentSample (sineIds j) j
        sch).maxEventsPerSine := by
      rw [hstep.2.2.2.2]
      exact hcap
    have hrec := ih (injectPartial st sampleRate currentSample (sineIds j) j sch) hcap2
    simp only [List.foldl_cons, List.map_cons, List.flatten_cons]
    refine ⟨?_, ?_, hrec.2.2.trans hstep.2.2.2.2⟩
    · rw [hrec.1, hstep.1, List.append_assoc]
    · rw [hrec.2.1, hstep.2.1, List.append_assoc]

/-- C4: when an instantaneous external-control change (pitch ratio or gate) is
pending at the start of a block, the injection emits for every partial, in each
stream, an override pair: point A at the current sample whose value is computed
from the previous control state, and point B at exactly A + 8 samples whose
value is computed from the new control state (so A < B = A + 8), and advances
that partial's last-emitted-sample cursors (both streams) to B's timestamp. -/
theorem override_ramp_injection (st : AdditiveSynthState) (sampleRate currentSample : ℝ)
    (sineIds : Fin 32 → ℝ) (sch : SineEventScheduler)
    (hpending : st.needsImmediateEvent = true) (hcap : 2 ≤ sch.maxEventsPerSine) :
    getAmplitudeBuffer (processImmediate st sampleRate currentSample sineIds sch).1 =
      getAmplitudeBuffer sch ++
        ((List.finRange 32).map fun i =>
          ampOverrideSection st sampleRate currentSample (sineIds i) i).flatten ∧
    getFrequencyBuffer (processImmediate st sampleRate currentSample sineIds sch).1 =
      getFrequencyBuffer sch ++
        ((List.finRange 32).map fun i =>
          freqOverrideSection st currentSample (sineIds i) i).flatten ∧
    currentSample < currentSample + KEYBOARD_RAMP_SAMPLES ∧
    currentSample + KEYBOARD_RAMP_SAMPLES = currentSample + 8 ∧
    (∀ i : Fin 32,
      (processImmediate st sampleRate currentSample sineIds sch).2.lastAmpEventSample i =
        some (currentSample + 8) ∧
      (processImmediate st sampleRate currentSample sineIds sch).2.lastFreqEventSample i =
        some (currentSample + 8)) := by
  have h := foldl_injectPartial_spec st sampleRate currentSample sineIds
    (List.finRange 32) sch hcap
  simp only [processImmediate, if_pos hpending]
  refine ⟨h.1, h.2.1, ?_, rfl, ?_⟩
  · show currentSample < currentSample + 8
    linarith
  · intro i
    exact ⟨rfl, rfl⟩

theorem override_ramp_injection_witness :
    getAmplitudeBuffer (processImmediate { initialSynthState with needsImmediateEvent := true }
        48000 0 (fun _ => 0) (mkScheduler 32 8)).1 =
      getAmplitudeBuffer (mkScheduler 32 8) ++
        ((List.finRange 32).map fun i =>
          ampOverrideSection { initialSynthState with needsImmediateEvent := true }
            48000 0 0 i).flatten ∧
    getFrequencyBuffer (processImmediate { initialSynthState with needsImmediateEvent := true }
        48000 0 (fun _ => 0) (mkScheduler 32 8)).1 =
      getFrequencyBuffer (mkScheduler 32 8) ++
        ((List.finRange 32).map fun i =>
          freqOverrideSection { initialSynthState with needsImmediateEvent := true }
            0 0 i).flatten ∧
    (0 : ℝ) < 0 + KEYBOARD_RAMP_SAMPLES ∧
    (0 : ℝ) + KEYBOARD_RAMP_SAMPLES = 0 + 8 ∧
    (∀ i : Fin 32,
      (processImmediate { initialSynthState with needsImmediateEvent := true }
          48000 0 (fun _ => 0) (mkScheduler 32 8)).2.lastAmpEventSample i = some (0 + 8) ∧
      (processImmediate { initialSynthState with needsImmediateEvent := true }
          48000 0 (fun _ => 0) (mkScheduler 32 8)).2.lastFreqEventSample i = some (0 + 8)) :=
  override_ramp_injection { initialSynthState with needsImmediateEvent := true }
    48000 0 (fun _ => 0) (mkScheduler 32 8) rfl (by norm_num [mkScheduler])

end YamahaMidi
